import Mathlib

/-!
Verification development for the SwiftDrop transfer engine.

The TypeScript source is shallowly embedded here:
* byte buffers (`ArrayBuffer` / `Uint8Array`) become `List ℕ`;
* the AES-GCM calls into `crypto.subtle` (a platform primitive outside the
  repository) are modelled as an executable AEAD stream cipher with a
  12-byte IV and a trailing 16-byte (128-bit) authentication tag, the
  interface shape taken from `encryptData` / `decryptData` in the
  encryption module;
* the WebRTC data channel becomes an explicit list of messages, and the
  receiver (`handleDataChannelMessage` / `reassembleFile`) becomes a
  state-passing fold over that list;
* the speed/ETA computation of the `onProgress` callbacks in
  `Transfer.tsx` is embedded over exact rationals;
* the history store (`storage.ts`) sorting and limiting is embedded over
  plain lists.
-/

namespace SwiftDrop

/-! ## Cipher module (encryption module of the source)

`encryptData` in the source draws a fresh random 12-byte IV and calls
`crypto.subtle.encrypt` with AES-GCM; `decryptData` calls
`crypto.subtle.decrypt` with the supplied IV.

Modelled from the spec: the AES-GCM primitive itself lives in the browser
platform, not in the repository; the spec describes it as an AEAD with a
96-bit nonce and a 128-bit tag whose ciphertext carries the tag at the
end.  We model it as a stream cipher (XOR with a keystream derived from
key and IV) followed by a 16-byte tag over the ciphertext; the random IV
draw is made explicit as a parameter. -/

/-- Keystream of `n` bytes derived from `key` and `iv` (model of the
AES-CTR keystream inside GCM). -/
def keystream (key iv : List ℕ) (n : ℕ) : List ℕ :=
  (List.range n).map fun i => (key.sum * 131 + iv.sum * 17 + i * 31 + 7) % 256

/-- 16-byte authentication tag over the ciphertext (model of GHASH). -/
def ghashTag (key iv ct : List ℕ) : List ℕ :=
  (List.range 16).map fun i =>
    (key.sum * 7 + iv.sum * 13 + ct.sum * 3 + ct.length * 11 + i) % 256

/-- `encryptData(data, key)` with the random IV draw made explicit:
returns the ciphertext with its trailing 16-byte tag. -/
def encryptData (data key iv : List ℕ) : List ℕ :=
  List.zipWith Nat.xor data (keystream key iv data.length) ++
    ghashTag key iv (List.zipWith Nat.xor data (keystream key iv data.length))

/-- `decryptData(encryptedData, key, iv)`: `none` models a thrown cipher
error (too short to hold a tag, or tag verification failure). -/
def decryptData (enc key iv : List ℕ) : Option (List ℕ) :=
  if enc.length < 16 then none
  else
    let ct := enc.take (enc.length - 16)
    if enc.drop (enc.length - 16) = ghashTag key iv ct then
      some (List.zipWith Nat.xor ct (keystream key iv ct.length))
    else none

theorem keystream_length (key iv : List ℕ) (n : ℕ) :
    (keystream key iv n).length = n := by
  simp [keystream]

theorem ghashTag_length (key iv ct : List ℕ) :
    (ghashTag key iv ct).length = 16 := by
  simp [ghashTag]

theorem encryptData_length (data key iv : List ℕ) :
    (encryptData data key iv).length = data.length + 16 := by
  simp [encryptData, keystream_length, ghashTag_length]

theorem zipWith_xor_cancel :
    ∀ (B ks : List ℕ), B.length ≤ ks.length →
      List.zipWith Nat.xor (List.zipWith Nat.xor B ks) ks = B
  | [], _, _ => by simp
  | _ :: _, [], h => by simp at h
  | b :: B, k :: ks, h => by
      simp only [List.zipWith_cons_cons, List.cons.injEq]
      exact ⟨Nat.xor_cancel_right k b, zipWith_xor_cancel B ks (by simpa using h)⟩

/-- Decrypting the output of `encryptData` with the same key and IV
recovers the plaintext. -/
theorem decrypt_encrypt (B key iv : List ℕ) :
    decryptData (encryptData B key iv) key iv = some B := by
  have hks : (keystream key iv B.length).length = B.length :=
    keystream_length key iv B.length
  have hct : (List.zipWith Nat.xor B (keystream key iv B.length)).length
      = B.length := by simp [hks]
  rw [decryptData, encryptData]
  rw [if_neg (by simp [List.length_append, hct, ghashTag_length])]
  have hlen :
      (List.zipWith Nat.xor B (keystream key iv B.length) ++
        ghashTag key iv (List.zipWith Nat.xor B (keystream key iv B.length))).length
        - 16 = B.length := by
    simp [List.length_append, hct, ghashTag_length]
  rw [hlen, List.take_left' hct, List.drop_left' hct, if_pos rfl, hct]
  exact congrArg some (zipWith_xor_cancel B _ (le_of_eq hks.symm))

/-! ## Chunker (the send loop of `WebRTCTransfer.sendFile`)

The source loop is
`while (offset < totalSize) { chunk = combined.slice(offset, offset + CHUNK_SIZE); ... }`.
For `S = 0` the source loop would not terminate; all uses have
`S = CHUNK_SIZE = 16384`. -/

def CHUNK_SIZE : ℕ := 16384

def chunkList (S : ℕ) (B : List ℕ) : List (List ℕ) :=
  if h : S = 0 ∨ B = [] then [] else B.take S :: chunkList S (B.drop S)
termination_by B.length
decreasing_by
  push_neg at h
  have hB : 0 < B.length := List.length_pos.mpr h.2
  have hS : 0 < S := Nat.pos_of_ne_zero h.1
  simp only [List.length_drop]
  omega

theorem chunkList_nil (S : ℕ) : chunkList S [] = [] := by
  rw [chunkList]; simp

theorem chunkList_zero (B : List ℕ) : chunkList 0 B = [] := by
  rw [chunkList]; simp

theorem chunkList_cons {S : ℕ} {B : List ℕ} (hS : S ≠ 0) (hB : B ≠ []) :
    chunkList S B = B.take S :: chunkList S (B.drop S) := by
  rw [chunkList]; simp [hS, hB]

theorem chunkList_eq_nil_iff (S : ℕ) (B : List ℕ) :
    chunkList S B = [] ↔ S = 0 ∨ B = [] := by
  constructor
  · intro h
    by_contra hc
    push_neg at hc
    rw [chunkList_cons hc.1 hc.2] at h
    simp at h
  · rintro (rfl | rfl)
    · exact chunkList_zero B
    · exact chunkList_nil S

/-- Concatenating the chunks in order reconstructs the input buffer. -/
theorem chunkList_join (S : ℕ) (hS : S ≠ 0) (B : List ℕ) :
    (chunkList S B).flatten = B := by
  by_cases hB : B = []
  · subst hB; simp [chunkList_nil]
  · rw [chunkList_cons hS hB, List.flatten_cons,
      chunkList_join S hS (B.drop S), List.take_append_drop]
termination_by B.length
decreasing_by
  have hB' : 0 < B.length := List.length_pos.mpr hB
  have hS' : 0 < S := Nat.pos_of_ne_zero hS
  simp only [List.length_drop]
  omega

/-- The number of chunks is the ceiling of `B.length / S`. -/
theorem chunkList_length (S : ℕ) (hS : S ≠ 0) (B : List ℕ) :
    (chunkList S B).length = (B.length + S - 1) / S := by
  have hSpos : 0 < S := Nat.pos_of_ne_zero hS
  by_cases hB : B = []
  · subst hB
    simp only [chunkList_nil, List.length_nil, Nat.zero_add]
    rw [Nat.div_eq_of_lt (by omega)]
  · rw [chunkList_cons hS hB]
    have hn : 0 < B.length := List.length_pos.mpr hB
    rw [List.length_cons, chunkList_length S hS (B.drop S), List.length_drop]
    rcases le_or_lt B.length S with hle | hlt
    · have h1 : B.length - S + S - 1 = S - 1 := by omega
      have h2 : B.length + S - 1 = (B.length - 1) + S := by omega
      rw [h1, h2, Nat.add_div_right _ hSpos, Nat.div_eq_of_lt (by omega),
        Nat.div_eq_of_lt (by omega)]
    · have h1 : B.length - S + S - 1 = (B.length - S - 1) + S := by omega
      have h2 : B.length + S - 1 = (B.length - 1) + S := by omega
      have h3 : B.length - 1 = (B.length - S - 1) + S := by omega
      rw [h1, h2, Nat.add_div_right _ hSpos, Nat.add_div_right _ hSpos, h3,
        Nat.add_div_right _ hSpos]
termination_by B.length
decreasing_by
  have hn : 0 < B.length := List.length_pos.mpr hB
  simp only [List.length_drop]
  omega

/-- Every chunk has length at most `S`. -/
theorem chunkList_le (S : ℕ) (hS : S ≠ 0) (B : List ℕ) :
    ∀ c ∈ chunkList S B, c.length ≤ S := by
  by_cases hB : B = []
  · subst hB; simp [chunkList_nil]
  · rw [chunkList_cons hS hB]
    intro c hc
    rcases List.mem_cons.mp hc with rfl | hc
    · simp [List.length_take]
    · exact chunkList_le S hS (B.drop S) c hc
termination_by B.length
decreasing_by
  have hn : 0 < B.length := List.length_pos.mpr hB
  have hS' : 0 < S := Nat.pos_of_ne_zero hS
  simp only [List.length_drop]
  omega

/-- Every chunk except possibly the last has length exactly `S`. -/
theorem chunkList_dropLast (S : ℕ) (hS : S ≠ 0) (B : List ℕ) :
    ∀ c ∈ (chunkList S B).dropLast, c.length = S := by
  by_cases hB : B = []
  · subst hB; simp [chunkList_nil]
  · rw [chunkList_cons hS hB]
    by_cases hrest : chunkList S (B.drop S) = []
    · rw [hrest]
      simp
    · obtain ⟨c₀, cs, hcs⟩ := List.exists_cons_of_ne_nil hrest
      rw [hcs, List.dropLast_cons₂]
      intro c hc
      rcases List.mem_cons.mp hc with rfl | hc
      · have hdrop : B.drop S ≠ [] := by
          intro hd
          exact hrest ((chunkList_eq_nil_iff S (B.drop S)).mpr (Or.inr hd))
        have hSlt : S < B.length := by
          have := List.length_pos.mpr hdrop
          simp only [List.length_drop] at this
          omega
        simp [List.length_take, Nat.min_eq_left (le_of_lt hSlt)]
      · rw [← hcs] at hc
        exact chunkList_dropLast S hS (B.drop S) c hc
termination_by B.length
decreasing_by
  have hn : 0 < B.length := List.length_pos.mpr hB
  have hS' : 0 < S := Nat.pos_of_ne_zero hS
  simp only [List.length_drop]
  omega

/-! ## Wire messages and the sender (`WebRTCTransfer.sendFile`)

The source sends one JSON metadata message, then the combined
`IV ++ ciphertext` buffer in binary chunks of `CHUNK_SIZE`, then one JSON
end message. -/

inductive Msg where
  | meta (name : String) (size : ℕ) (mime : String)
  | data (payload : List ℕ)
  | endMsg
deriving DecidableEq

/-- Observable receiver-side events.  `progress`, `fileReceived` and
`logError` are what the source emits (`onProgressCallback`,
`onFileReceivedCallback`, `console.error`).  `failedReport` and
`truncatedTransfer` are part of the observation alphabet only so that
spec-level sentences about a Failed report or a TruncatedTransfer error
can be stated; the embedded code never produces them. -/
inductive Event where
  | progress (sent total : ℕ)
  | fileReceived (name mime : String) (content : List ℕ)
  | logError
  | failedReport
  | truncatedTransfer
deriving DecidableEq

/-- `sendFile`: metadata, then the chunks of `iv ++ encryptData …`, then
the end signal.  The random IV draw inside `encryptData` is explicit. -/
def sendFile (name mime : String) (data key iv : List ℕ) : List Msg :=
  Msg.meta name data.length mime ::
    (chunkList CHUNK_SIZE (iv ++ encryptData data key iv)).map Msg.data ++
    [Msg.endMsg]

/-- The payloads of the binary (data) messages, in order. -/
def dataPayloads (msgs : List Msg) : List (List ℕ) :=
  msgs.filterMap fun m =>
    match m with
    | Msg.data d => some d
    | _ => none

def countDataMsgs (msgs : List Msg) : ℕ := (dataPayloads msgs).length

def isEnd (m : Msg) : Bool :=
  match m with
  | Msg.endMsg => true
  | _ => false

def countEndMsgs (msgs : List Msg) : ℕ := msgs.countP isEnd

theorem dataPayloads_sendFile (name mime : String) (data key iv : List ℕ) :
    dataPayloads (sendFile name mime data key iv) =
      chunkList CHUNK_SIZE (iv ++ encryptData data key iv) := by
  simp [sendFile, dataPayloads, List.filterMap_cons, List.filterMap_append,
    List.filterMap_map]
  exact List.filterMap_some _

theorem countEndMsgs_sendFile (name mime : String) (data key iv : List ℕ) :
    countEndMsgs (sendFile name mime data key iv) = 1 := by
  simp only [countEndMsgs, sendFile, List.countP_cons, List.countP_append,
    List.countP_map]
  have h1 : List.countP (fun d => isEnd (Msg.data d))
      (chunkList CHUNK_SIZE (iv ++ encryptData data key iv)) = 0 := by
    simp [List.countP_eq_zero, isEnd]
  simp [isEnd, h1, List.countP_cons]

/-! ## Receiver (`handleDataChannelMessage` and `reassembleFile`) -/

structure RState where
  chunks : List (List ℕ)
  name : String
  mime : String
  total : ℕ
  recvd : ℕ
deriving DecidableEq

def initR : RState := ⟨[], "", "", 0, 0⟩

/-- `const iv = combined.slice(0, 12)` over the accumulated chunks. -/
def receiverNonce (st : RState) : List ℕ := st.chunks.flatten.take 12

/-- `const encryptedData = combined.slice(12)` over the accumulated
chunks. -/
def receiverCipher (st : RState) : List ℕ := st.chunks.flatten.drop 12

/-- `reassembleFile`: concatenate the accumulated chunks, split off the
first 12 bytes as the IV, decrypt the rest; on success surface the file,
on any thrown error only log it (the source `catch` block). -/
def reassembleFile (key : List ℕ) (st : RState) : List Event :=
  match decryptData (receiverCipher st) key (receiverNonce st) with
  | some pt => [Event.fileReceived st.name st.mime pt]
  | none => [Event.logError]

/-- One step of `handleDataChannelMessage`. -/
def handleMessage (key : List ℕ) (st : RState) : Msg → RState × List Event
  | Msg.meta n s m => (⟨[], n, m, s, 0⟩, [])
  | Msg.data d =>
      (⟨st.chunks ++ [d], st.name, st.mime, st.total, st.recvd + d.length⟩,
        [Event.progress (st.recvd + d.length) st.total])
  | Msg.endMsg => (st, reassembleFile key st)

/-- Run the receiver over a list of inbound messages, accumulating the
emitted events in order. -/
def runReceiver (key : List ℕ) : RState → List Msg → RState × List Event
  | st, [] => (st, [])
  | st, m :: ms =>
      let r := handleMessage key st m
      let r2 := runReceiver key r.1 ms
      (r2.1, r.2 ++ r2.2)

def fileReceiveds (evs : List Event) : List (String × String × List ℕ) :=
  evs.filterMap fun e =>
    match e with
    | Event.fileReceived n m c => some (n, m, c)
    | _ => none

def progressSents (evs : List Event) : List ℕ :=
  evs.filterMap fun e =>
    match e with
    | Event.progress s _ => some s
    | _ => none

/-- Running sums of a list of chunk sizes starting from `acc`: the
successive values of the sender `offset` / receiver `receivedSize`. -/
def cumSums : List ℕ → ℕ → List ℕ
  | [], _ => []
  | x :: xs, acc => (acc + x) :: cumSums xs (acc + x)

/-- The progress samples of the sender loop in `sendFile`: after each
chunk the callback receives `sent = offset`, the running total of the
chunk byte lengths. -/
def senderSamples (name mime : String) (data key iv : List ℕ) : List ℕ :=
  cumSums ((dataPayloads (sendFile name mime data key iv)).map List.length) 0

/-- State after absorbing data-chunk payloads `ds`. -/
def accData (st : RState) (ds : List (List ℕ)) : RState :=
  ⟨st.chunks ++ ds, st.name, st.mime, st.total,
    st.recvd + (ds.map List.length).sum⟩

/-- Progress events emitted while absorbing data payloads `ds`. -/
def dataEvents (total recvd : ℕ) (ds : List (List ℕ)) : List Event :=
  (cumSums (ds.map List.length) recvd).map fun s => Event.progress s total

theorem runReceiver_data_append (key : List ℕ) (st : RState)
    (ds : List (List ℕ)) (rest : List Msg) :
    runReceiver key st (ds.map Msg.data ++ rest) =
      ((runReceiver key (accData st ds) rest).1,
        dataEvents st.total st.recvd ds ++
          (runReceiver key (accData st ds) rest).2) := by
  induction ds generalizing st with
  | nil =>
      obtain ⟨c, n, m, t, r⟩ := st
      simp [accData, dataEvents, cumSums]
  | cons d ds ih =>
      simp only [List.map_cons, List.cons_append, runReceiver, handleMessage,
        List.append_eq]
      rw [ih]
      have hacc : accData ⟨st.chunks ++ [d], st.name, st.mime, st.total,
          st.recvd + d.length⟩ ds = accData st (d :: ds) := by
        simp [accData, List.append_assoc, Nat.add_assoc]
      have hev : dataEvents st.total st.recvd (d :: ds) =
          Event.progress (st.recvd + d.length) st.total ::
            dataEvents st.total (st.recvd + d.length) ds := by
        simp [dataEvents, cumSums]
      rw [hacc]
      simp [hev]

theorem progressSents_dataEvents (total recvd : ℕ) (ds : List (List ℕ)) :
    progressSents (dataEvents total recvd ds) = cumSums (ds.map List.length) recvd := by
  simp [progressSents, dataEvents, List.filterMap_map]
  exact List.filterMap_some _

theorem fileReceiveds_dataEvents (total recvd : ℕ) (ds : List (List ℕ)) :
    fileReceiveds (dataEvents total recvd ds) = [] := by
  simp [fileReceiveds, dataEvents, List.filterMap_map]

theorem progressSents_reassemble (key : List ℕ) (st : RState) :
    progressSents (reassembleFile key st) = [] := by
  rw [reassembleFile]
  cases decryptData (receiverCipher st) key (receiverNonce st) <;>
    simp [progressSents]

/-- Full run of the receiver over one file's message stream produced by
`sendFile`: the surfaced files are exactly the original one. -/
theorem receiver_reconstructs (name mime : String) (B key iv : List ℕ)
    (hiv : iv.length = 12) :
    fileReceiveds
      (runReceiver key initR (sendFile name mime B key iv)).2 =
      [(name, mime, B)] := by
  rw [sendFile]
  simp only [runReceiver, handleMessage, List.append_eq, List.cons_append,
    List.nil_append]
  rw [runReceiver_data_append]
  have hst : accData ⟨[], name, mime, B.length, 0⟩
      (chunkList CHUNK_SIZE (iv ++ encryptData B key iv)) =
      ⟨chunkList CHUNK_SIZE (iv ++ encryptData B key iv), name, mime,
        B.length, ((chunkList CHUNK_SIZE (iv ++ encryptData B key iv)).map
          List.length).sum⟩ := by
    simp [accData]
  rw [hst]
  simp only [runReceiver, handleMessage]
  rw [fileReceiveds, List.filterMap_append, List.filterMap_append]
  rw [← fileReceiveds, ← fileReceiveds, ← fileReceiveds, fileReceiveds_dataEvents]
  have hre : reassembleFile key
      ⟨chunkList CHUNK_SIZE (iv ++ encryptData B key iv), name, mime,
        B.length, ((chunkList CHUNK_SIZE (iv ++ encryptData B key iv)).map
          List.length).sum⟩ = [Event.fileReceived name mime B] := by
    rw [reassembleFile, receiverNonce, receiverCipher]
    have hflat : (chunkList CHUNK_SIZE (iv ++ encryptData B key iv)).flatten =
        iv ++ encryptData B key iv :=
      chunkList_join CHUNK_SIZE (by decide) _
    simp only [hflat]
    rw [List.take_left' hiv, List.drop_left' hiv, decrypt_encrypt]
  rw [hre]
  simp [fileReceiveds]

/-! ## Monotonicity of progress samples -/

theorem cumSums_le (ls : List ℕ) (acc : ℕ) : ∀ y ∈ cumSums ls acc, acc ≤ y := by
  induction ls generalizing acc with
  | nil => simp [cumSums]
  | cons x xs ih =>
      intro y hy
      rw [cumSums] at hy
      rcases List.mem_cons.mp hy with rfl | hy
      · omega
      · exact le_trans (by omega) (ih (acc + x) y hy)

theorem cumSums_chain (ls : List ℕ) (acc : ℕ) :
    List.Chain' (· ≤ ·) (cumSums ls acc) := by
  induction ls generalizing acc with
  | nil => simp [cumSums]
  | cons x xs ih =>
      rw [cumSums]
      cases h : cumSums xs (acc + x) with
      | nil => simp
      | cons c cs =>
          rw [List.chain'_cons]
          refine ⟨?_, ?_⟩
          · exact cumSums_le xs (acc + x) c (by rw [h]; exact List.mem_cons_self _ _)
          · have := ih (acc + x)
            rwa [h] at this

/-- The receiver's progress samples for one file's message stream. -/
def receiverSamples (key : List ℕ) (name : String) (size : ℕ) (mime : String)
    (ds : List (List ℕ)) : List ℕ :=
  progressSents
    (runReceiver key initR (Msg.meta name size mime :: ds.map Msg.data ++
      [Msg.endMsg])).2

theorem receiverSamples_eq (key : List ℕ) (name : String) (size : ℕ)
    (mime : String) (ds : List (List ℕ)) :
    receiverSamples key name size mime ds = cumSums (ds.map List.length) 0 := by
  rw [receiverSamples]
  simp only [runReceiver, handleMessage, List.append_eq, List.cons_append,
    List.nil_append]
  rw [runReceiver_data_append]
  simp only [runReceiver, handleMessage]
  rw [progressSents, List.filterMap_append, List.filterMap_append,
    ← progressSents, ← progressSents, ← progressSents,
    progressSents_dataEvents, progressSents_reassemble]
  simp [progressSents]

/-! ## Metrics estimator (the `onProgress` callbacks in `Transfer.tsx`)

JS numbers are embedded as exact rationals; `Date.now()` values and byte
counts are exchanged as ℚ.  The two callbacks (sender and receiver) have
identical speed/ETA code. -/

structure EstResult where
  speed : ℚ
  eta : ℚ
  lastSent : ℚ
  lastTime : ℚ
deriving DecidableEq

/-- One `onProgress` invocation: computes speed and ETA from the stored
last sample `(lastSent, lastTime)`, the session start time, and the new
sample `(sent, total)` arriving at time `now`. -/
def computeSpeedEta (startTime lastSent lastTime now sent total : ℚ) :
    EstResult :=
  let timeDiff := (now - lastTime) / 1000
  let bytesDiff := sent - lastSent
  if timeDiff > 1 / 10 then
    let speed := bytesDiff / timeDiff
    let eta := if speed > 0 then (total - sent) / speed else 0
    ⟨speed, eta, sent, now⟩
  else if lastTime > 0 then
    let totalTime := (now - startTime) / 1000
    let speed := if totalTime > 0 then sent / totalTime else 0
    let eta := if speed > 0 then (total - sent) / speed else 0
    ⟨speed, eta, lastSent, lastTime⟩
  else ⟨0, 0, lastSent, lastTime⟩

/-- `formatETA` in the progress bar renders `0` (and only non-positive
JS falsy/NaN/∞ values, none of which arise over ℚ except `0`) as the
indeterminate display string. -/
def etaIndeterminate (seconds : ℚ) : Bool := decide (seconds = 0)

theorem computeSpeedEta_eta_cases (startTime lastSent lastTime now sent total : ℚ) :
    (computeSpeedEta startTime lastSent lastTime now sent total).eta =
      (if (computeSpeedEta startTime lastSent lastTime now sent total).speed > 0
        then (total - sent) /
          (computeSpeedEta startTime lastSent lastTime now sent total).speed
        else 0) := by
  rw [computeSpeedEta]
  split_ifs with h1 h2 h3 h4 h5 <;> simp_all [computeSpeedEta]

/-! ## History storage (`storage.ts`)

`getAllTransfers` resolves the stored records and sorts them with the
comparator `(a, b) => b.timestamp - a.timestamp`, i.e. by timestamp
descending; `getRecentTransfers(limit = 10)` takes the first `limit` of
that order. -/

structure TransferRecord where
  id : String
  fileName : String
  fileSize : ℕ
  timestamp : ℤ
  type : String
  status : String
deriving DecidableEq

/-- The sort order of `getAllTransfers`: newer (larger timestamp) first. -/
def tsDesc (a b : TransferRecord) : Prop := b.timestamp ≤ a.timestamp

instance : DecidableRel tsDesc := fun a b =>
  inferInstanceAs (Decidable (b.timestamp ≤ a.timestamp))

instance : IsTotal TransferRecord tsDesc :=
  ⟨fun a b => le_total b.timestamp a.timestamp⟩

instance : IsTrans TransferRecord tsDesc :=
  ⟨fun _ _ _ h1 h2 => le_trans h2 h1⟩

def getAllTransfers (records : List TransferRecord) : List TransferRecord :=
  List.insertionSort tsDesc records

def getRecentTransfers (records : List TransferRecord) (limit : ℕ) :
    List TransferRecord :=
  (getAllTransfers records).take limit

/-- `getRecentTransfers` with its default argument `limit = 10`. -/
def getRecentTransfersDefault (records : List TransferRecord) :
    List TransferRecord :=
  getRecentTransfers records 10

/-- The receiver state after consuming one full `sendFile` stream. -/
theorem runReceiver_sendFile_state (name mime : String) (B key iv : List ℕ) :
    (runReceiver key initR (sendFile name mime B key iv)).1 =
      ⟨chunkList CHUNK_SIZE (iv ++ encryptData B key iv), name, mime,
        B.length, ((chunkList CHUNK_SIZE (iv ++ encryptData B key iv)).map
          List.length).sum⟩ := by
  rw [sendFile]
  simp only [runReceiver, handleMessage, List.append_eq, List.cons_append,
    List.nil_append]
  rw [runReceiver_data_append]
  simp only [runReceiver, handleMessage]
  simp [accData]

/-! ## Concrete inputs used in witnesses and counterexamples -/

def key0 : List ℕ := List.replicate 32 0

def iv0 : List ℕ := List.replicate 12 0

def oneMiB : List ℕ := List.replicate 1048576 0

/-- A receiver state whose accumulated buffer (30 zero bytes) fails
authentication when decrypted. -/
def stBad : RState := ⟨[List.replicate 30 0], "f", "m", 30, 30⟩

/-- A receiver state whose accumulated buffer is shorter than the
12-byte nonce. -/
def stShort : RState := ⟨[[0, 0, 0, 0, 0]], "f", "m", 5, 5⟩

/-! ## Claims -/

/-- C1: for every byte buffer `B` and every key `K`, decrypting the
output of `encryptData(B, K)` with the same key and the returned 12-byte
IV yields exactly `B`. -/
theorem C1_encrypt_decrypt_round_trip (B key iv : List ℕ) :
    decryptData (encryptData B key iv) key iv = some B :=
  decrypt_encrypt B key iv

/-- C2 counterexample: for a single 1 MiB file the sender emits 65 data
chunk messages, not 64: the chunked buffer is the 12-byte IV plus the
ciphertext with its 16-byte tag, 1,048,604 bytes in total. -/
theorem C2_counterexample :
    countDataMsgs (sendFile "file.bin" "application/octet-stream" oneMiB
      key0 iv0) = 65 ∧
    countDataMsgs (sendFile "file.bin" "application/octet-stream" oneMiB
      key0 iv0) ≠ 64 := by
  have h : countDataMsgs (sendFile "file.bin" "application/octet-stream"
      oneMiB key0 iv0) = 65 := by
    rw [countDataMsgs, dataPayloads_sendFile,
      chunkList_length CHUNK_SIZE (by decide)]
    have h1 : oneMiB.length = 1048576 := by
      rw [oneMiB, List.length_replicate]
    have h2 : iv0.length = 12 := by
      rw [iv0, List.length_replicate]
    rw [List.length_append, encryptData_length, h1, h2, CHUNK_SIZE]
  exact ⟨h, by rw [h]; decide⟩

/-- C2 (amended): transmitting a single 1 MiB file with the 16 KiB chunk
size sends exactly 65 data chunk messages (the encrypted stream is the
1,048,576 plaintext bytes plus the 16-byte tag plus the prepended
12-byte IV), followed by exactly one end control message as the last
message, and the receiver reconstructs a byte-identical file. -/
theorem C2_one_MiB_transfer (name mime : String) (B key iv : List ℕ)
    (hB : B.length = 1048576) (hiv : iv.length = 12) :
    countDataMsgs (sendFile name mime B key iv) = 65 ∧
    countEndMsgs (sendFile name mime B key iv) = 1 ∧
    (sendFile name mime B key iv).getLast? = some Msg.endMsg ∧
    fileReceiveds (runReceiver key initR (sendFile name mime B key iv)).2 =
      [(name, mime, B)] := by
  refine ⟨?_, countEndMsgs_sendFile name mime B key iv, ?_,
    receiver_reconstructs name mime B key iv hiv⟩
  · rw [countDataMsgs, dataPayloads_sendFile,
      chunkList_length CHUNK_SIZE (by decide)]
    rw [List.length_append, encryptData_length, hiv, hB, CHUNK_SIZE]
  · have hsf : sendFile name mime B key iv =
        (Msg.meta name B.length mime ::
          (chunkList CHUNK_SIZE (iv ++ encryptData B key iv)).map Msg.data) ++
          [Msg.endMsg] := by
      rw [sendFile, List.cons_append]
    rw [hsf]
    exact List.getLast?_concat _

theorem C2_witness :
    countDataMsgs (sendFile "w.bin" "bin" oneMiB key0 iv0) = 65 ∧
    countEndMsgs (sendFile "w.bin" "bin" oneMiB key0 iv0) = 1 ∧
    (sendFile "w.bin" "bin" oneMiB key0 iv0).getLast? = some Msg.endMsg ∧
    fileReceiveds (runReceiver key0 initR
      (sendFile "w.bin" "bin" oneMiB key0 iv0)).2 =
      [("w.bin", "bin", oneMiB)] :=
  C2_one_MiB_transfer "w.bin" "bin" oneMiB key0 iv0
    (by rw [oneMiB, List.length_replicate]) (by rw [iv0, List.length_replicate])

/-- C3: for every file sent, the transmitted binary byte stream is the
12-byte nonce immediately followed by the ciphertext with its trailing
tag, and on finalization the receiver takes the first 12 bytes of the
accumulated buffer as the nonce and the remainder as the ciphertext. -/
theorem C3_wire_layout (name mime : String) (B key iv : List ℕ)
    (hiv : iv.length = 12) :
    (dataPayloads (sendFile name mime B key iv)).flatten =
      iv ++ encryptData B key iv ∧
    receiverNonce (runReceiver key initR (sendFile name mime B key iv)).1 =
      iv ∧
    receiverCipher (runReceiver key initR (sendFile name mime B key iv)).1 =
      encryptData B key iv := by
  have hflat : (chunkList CHUNK_SIZE (iv ++ encryptData B key iv)).flatten =
      iv ++ encryptData B key iv :=
    chunkList_join CHUNK_SIZE (by decide) _
  refine ⟨by rw [dataPayloads_sendFile]; exact hflat, ?_, ?_⟩
  · rw [runReceiver_sendFile_state, receiverNonce]
    simp only [hflat]
    exact List.take_left' hiv
  · rw [runReceiver_sendFile_state, receiverCipher]
    simp only [hflat]
    exact List.drop_left' hiv

theorem C3_witness :
    (dataPayloads (sendFile "a" "b" [1, 2, 3] key0 iv0)).flatten =
      iv0 ++ encryptData [1, 2, 3] key0 iv0 ∧
    receiverNonce (runReceiver key0 initR
      (sendFile "a" "b" [1, 2, 3] key0 iv0)).1 = iv0 ∧
    receiverCipher (runReceiver key0 initR
      (sendFile "a" "b" [1, 2, 3] key0 iv0)).1 =
      encryptData [1, 2, 3] key0 iv0 :=
  C3_wire_layout "a" "b" [1, 2, 3] key0 iv0
    (by rw [iv0, List.length_replicate])

/-- C4 counterexample: on a concrete corrupted buffer the decryption
fails, yet the receiver emits no Failed report — the `catch` block only
logs the error. -/
theorem C4_counterexample :
    decryptData (receiverCipher stBad) key0 (receiverNonce stBad) = none ∧
    Event.failedReport ∉ reassembleFile key0 stBad := by decide

/-- C4 (amended): if decryption of the reassembled buffer fails, the
receiver surfaces no file object — the file-received callback is never
invoked with partial or garbage output — but it does not report the file
as Failed either: the error is only logged. -/
theorem C4_decrypt_failure_no_file (key : List ℕ) (st : RState)
    (h : decryptData (receiverCipher st) key (receiverNonce st) = none) :
    reassembleFile key st = [Event.logError] ∧
    fileReceiveds (reassembleFile key st) = [] ∧
    Event.failedReport ∉ reassembleFile key st := by
  have h1 : reassembleFile key st = [Event.logError] := by
    rw [reassembleFile, h]
  rw [h1]
  exact ⟨rfl, by simp [fileReceiveds], by simp⟩

theorem C4_witness :
    reassembleFile key0 stBad = [Event.logError] ∧
    fileReceiveds (reassembleFile key0 stBad) = [] ∧
    Event.failedReport ∉ reassembleFile key0 stBad :=
  C4_decrypt_failure_no_file key0 stBad (by decide)

/-- C5: for every byte buffer `B` and chunk size `S > 0`, the chunking
loop produces exactly `⌈B.length / S⌉` slices, each of length `S` except
a possibly shorter final slice, concatenating them in order reconstructs
`B`, and a zero-length buffer yields zero chunks. -/
theorem C5_chunk_properties (B : List ℕ) (S : ℕ) (hS : 0 < S) :
    (chunkList S B).length = (B.length + S - 1) / S ∧
    (chunkList S B).flatten = B ∧
    (∀ c ∈ (chunkList S B).dropLast, c.length = S) ∧
    (∀ c ∈ chunkList S B, c.length ≤ S) ∧
    chunkList S [] = [] :=
  ⟨chunkList_length S (by omega) B, chunkList_join S (by omega) B,
    chunkList_dropLast S (by omega) B, chunkList_le S (by omega) B,
    chunkList_nil S⟩

theorem C5_witness :
    (chunkList 3 [1, 2, 3, 4, 5, 6, 7]).length = (7 + 3 - 1) / 3 ∧
    (chunkList 3 [1, 2, 3, 4, 5, 6, 7]).flatten = [1, 2, 3, 4, 5, 6, 7] ∧
    (∀ c ∈ (chunkList 3 [1, 2, 3, 4, 5, 6, 7]).dropLast, c.length = 3) ∧
    (∀ c ∈ chunkList 3 [1, 2, 3, 4, 5, 6, 7], c.length ≤ 3) ∧
    chunkList 3 [] = [] :=
  C5_chunk_properties [1, 2, 3, 4, 5, 6, 7] 3 (by decide)

/-- C6 counterexample: with 5 accumulated bytes (shorter than the
12-byte nonce) the receiver raises no TruncatedTransfer failure — it
only logs the decryption error. -/
theorem C6_counterexample :
    stShort.chunks.flatten.length < 12 ∧
    Event.truncatedTransfer ∉ reassembleFile key0 stShort ∧
    reassembleFile key0 stShort = [Event.logError] := by decide

/-- C6 (amended): on the end-of-file signal the receiver performs no
minimum-length verification and never fails with TruncatedTransfer; when
the accumulated buffer is shorter than the 12-byte nonce the split
yields an empty ciphertext, decryption fails, and the error is only
logged. -/
theorem C6_no_truncation_check (key : List ℕ) (st : RState)
    (h : st.chunks.flatten.length < 12) :
    reassembleFile key st = [Event.logError] ∧
    Event.truncatedTransfer ∉ reassembleFile key st ∧
    fileReceiveds (reassembleFile key st) = [] := by
  have henc : receiverCipher st = [] := by
    rw [receiverCipher]
    exact List.drop_eq_nil_of_le (by omega)
  have hd : decryptData (receiverCipher st) key (receiverNonce st) = none := by
    rw [henc, decryptData]
    simp
  have h1 : reassembleFile key st = [Event.logError] := by
    rw [reassembleFile, hd]
  rw [h1]
  exact ⟨rfl, by simp, by simp [fileReceiveds]⟩

theorem C6_witness :
    reassembleFile key0 stShort = [Event.logError] ∧
    Event.truncatedTransfer ∉ reassembleFile key0 stShort ∧
    fileReceiveds (reassembleFile key0 stShort) = [] :=
  C6_no_truncation_check key0 stShort (by decide)

/-- C7 counterexample: a progress sample with `sent > total` — which the
receiver produces, since its `sent` accumulates the IV-and-tag-inflated
ciphertext while `total` is the declared plaintext size — yields a
strictly negative ETA. -/
theorem C7_counterexample :
    0 < (computeSpeedEta 0 0 1000 2000 1048604 1048576).speed ∧
    (computeSpeedEta 0 0 1000 2000 1048604 1048576).eta < 0 := by
  rw [computeSpeedEta]
  norm_num

/-- C7 (amended): the reported ETA equals `(total − sent) / speed` when
`speed > 0` and is `0` — rendered as the indeterminate display value —
when `speed = 0`; no division by zero occurs, and the ETA is
non-negative provided `sent ≤ total` (the receiver can violate
`sent ≤ total`, making the ETA negative, see the counterexample). -/
theorem C7_eta_properties (startTime lastSent lastTime now sent total : ℚ)
    (h : sent ≤ total) :
    (0 < (computeSpeedEta startTime lastSent lastTime now sent total).speed →
      (computeSpeedEta startTime lastSent lastTime now sent total).eta =
        (total - sent) /
          (computeSpeedEta startTime lastSent lastTime now sent total).speed) ∧
    ((computeSpeedEta startTime lastSent lastTime now sent total).speed = 0 →
      (computeSpeedEta startTime lastSent lastTime now sent total).eta = 0 ∧
      etaIndeterminate
        (computeSpeedEta startTime lastSent lastTime now sent total).eta =
        true) ∧
    0 ≤ (computeSpeedEta startTime lastSent lastTime now sent total).eta := by
  have hcases := computeSpeedEta_eta_cases startTime lastSent lastTime now
    sent total
  refine ⟨?_, ?_, ?_⟩
  · intro hs
    rw [hcases, if_pos hs]
  · intro hs
    rw [hcases, hs]
    norm_num [etaIndeterminate]
  · rw [hcases]
    split_ifs with hs
    · exact div_nonneg (by linarith) (le_of_lt hs)
    · exact le_refl 0

theorem C7_witness :
    (0 < (computeSpeedEta 0 0 1000 2000 500 1000).speed →
      (computeSpeedEta 0 0 1000 2000 500 1000).eta =
        (1000 - 500) / (computeSpeedEta 0 0 1000 2000 500 1000).speed) ∧
    ((computeSpeedEta 0 0 1000 2000 500 1000).speed = 0 →
      (computeSpeedEta 0 0 1000 2000 500 1000).eta = 0 ∧
      etaIndeterminate (computeSpeedEta 0 0 1000 2000 500 1000).eta = true) ∧
    0 ≤ (computeSpeedEta 0 0 1000 2000 500 1000).eta :=
  C7_eta_properties 0 0 1000 2000 500 1000 (by norm_num)

/-- C8: for a given file, the successive progress samples have
non-decreasing bytes-transferred values, on both the sender (offset
after each chunk) and the receiver (accumulated received size). -/
theorem C8_monotone_progress (name mime : String) (B key iv : List ℕ)
    (size : ℕ) (ds : List (List ℕ)) :
    List.Chain' (· ≤ ·) (senderSamples name mime B key iv) ∧
    List.Chain' (· ≤ ·) (receiverSamples key name size mime ds) := by
  constructor
  · rw [senderSamples]
    exact cumSums_chain _ 0
  · rw [receiverSamples_eq]
    exact cumSums_chain _ 0

/-- C9: on each new sample, if more than 100 ms elapsed since the stored
last sample, the estimator computes instantaneous speed
`(bytes delta) / (time delta)` and updates the stored last sample;
otherwise it reports the cumulative average (bytes so far divided by
time since session start) and leaves the stored last sample unchanged. -/
theorem C9_estimator_update (startTime lastSent lastTime now sent total : ℚ)
    (h1 : 0 < lastTime) (h2 : startTime < now) :
    (100 < now - lastTime →
      (computeSpeedEta startTime lastSent lastTime now sent total).speed =
        (sent - lastSent) / ((now - lastTime) / 1000) ∧
      (computeSpeedEta startTime lastSent lastTime now sent total).lastSent =
        sent ∧
      (computeSpeedEta startTime lastSent lastTime now sent total).lastTime =
        now) ∧
    (now - lastTime ≤ 100 →
      (computeSpeedEta startTime lastSent lastTime now sent total).speed =
        sent / ((now - startTime) / 1000) ∧
      (computeSpeedEta startTime lastSent lastTime now sent total).lastSent =
        lastSent ∧
      (computeSpeedEta startTime lastSent lastTime now sent total).lastTime =
        lastTime) := by
  have hiff : ((now - lastTime) / 1000 > 1 / 10) ↔ 100 < now - lastTime := by
    constructor <;> intro hx <;> linarith
  constructor
  · intro h
    have ht : (now - lastTime) / 1000 > 1 / 10 := hiff.mpr h
    simp only [computeSpeedEta]
    rw [if_pos ht]
    exact ⟨rfl, rfl, rfl⟩
  · intro h
    have ht : ¬((now - lastTime) / 1000 > 1 / 10) := fun hc =>
      (not_lt.mpr h) (hiff.mp hc)
    have htt : (now - startTime) / 1000 > 0 :=
      div_pos (by linarith) (by norm_num)
    simp only [computeSpeedEta]
    rw [if_neg ht, if_pos h1, if_pos htt]
    exact ⟨rfl, rfl, rfl⟩

theorem C9_witness :
    (computeSpeedEta 0 0 500 2000 600 1000).speed =
      (600 - 0) / ((2000 - 500) / 1000) ∧
    (computeSpeedEta 0 0 500 2000 600 1000).lastSent = 600 ∧
    (computeSpeedEta 0 0 500 2000 600 1000).lastTime = 2000 :=
  (C9_estimator_update 0 0 500 2000 600 1000 (by norm_num)
    (by norm_num)).1 (by norm_num)

/-- C10: `getAllTransfers` resolves with the stored records sorted by
timestamp descending (most recent first), and `getRecentTransfers`
returns at most `limit` records — the first `limit` of that descending
order — with the default limit being 10. -/
theorem C10_history_order (records : List TransferRecord) (limit : ℕ) :
    List.Sorted tsDesc (getAllTransfers records) ∧
    (getAllTransfers records).Perm records ∧
    getRecentTransfers records limit = (getAllTransfers records).take limit ∧
    (getRecentTransfers records limit).length ≤ limit ∧
    getRecentTransfersDefault records = getRecentTransfers records 10 := by
  refine ⟨List.sorted_insertionSort tsDesc records,
    List.perm_insertionSort tsDesc records, rfl, ?_, rfl⟩
  rw [getRecentTransfers, List.length_take]
  exact min_le_left _ _

end SwiftDrop
